import Mathlib

/-!
Verification of the AWS Route53 provider (`provider/aws.go`) of external-dns.

The Go code is shallowly embedded: Go strings are Lean `String`s (all strings
involved are ASCII, so Go's byte-wise comparisons coincide with the char-wise
comparisons used here); Go slices are `List`s; Go maps are association lists
`List (key × value)` (iteration order over a Go map is unspecified, which is
accounted for where it matters: see the theorems about `canonicalHostedZoneOn`
on permutations of the table); fallible calls are `Except`; Go `nil` pointers
inside structs are `Option`.
-/

/-- Lexicographic strict comparison of char lists, mirroring Go's byte-wise
string `<` on ASCII strings. -/
def lexLt : List Char → List Char → Bool
  | [], [] => false
  | [], _ :: _ => true
  | _ :: _, [] => false
  | a :: as, b :: bs => if a < b then true else if b < a then false else lexLt as bs

/-- Go's `s1 < s2` on strings (byte-wise lexicographic; char-wise on ASCII). -/
def strLt (a b : String) : Bool := lexLt a.data b.data

/-- Go's `strings.HasSuffix s suf` (byte-wise; char-wise on ASCII). -/
def hasSuffix (s suf : String) : Bool := suf.data.isSuffixOf s.data

/- ## Data model: the structs of the aws-sdk-go route53 package that the
provider populates, and external-dns endpoints.  Field names follow the Go
structs; `route53.ResourceRecordSet.Type` is rendered `type` because `Type`
is reserved in Lean. -/

/-- `route53.AliasTarget` (the fields set by `newChange`). -/
structure AliasTarget where
  DNSName : String
  HostedZoneId : String
  EvaluateTargetHealth : Bool
deriving DecidableEq

/-- `route53.ResourceRecord`. -/
structure ResourceRecord where
  Value : String
deriving DecidableEq

/-- `route53.ResourceRecordSet` (the fields used by the provider).  A `nil`
TTL pointer is `none`; a `nil` AliasTarget is `none`. -/
structure ResourceRecordSet where
  Name : String
  type : String
  TTL : Option Int
  ResourceRecords : List ResourceRecord
  AliasTarget : Option AliasTarget
deriving DecidableEq

/-- `route53.Change`. -/
structure Change where
  Action : String
  ResourceRecordSet : ResourceRecordSet
deriving DecidableEq

/-- `endpoint.Endpoint`.  `RecordTTL` — modelled from the spec: the endpoint
TTL is an "optional int32" and "explicitly configured" means the optional
value is present (the `endpoint` package's `TTL`/`IsConfigured` are outside
these sources). -/
structure Endpoint where
  DNSName : String
  Target : String
  RecordType : String
  RecordTTL : Option Int
deriving DecidableEq

/- ## Constants from `provider/aws.go` and the SDK string constants it uses. -/

def elbHostnameSuffix : String := ".elb.amazonaws.com"

def evaluateTargetHealth : Bool := true

def recordTTL : Int := 300

def maxChangeCount : Nat := 4000

/-- `route53.RRTypeA`. -/
def RRTypeA : String := "A"

/-- `endpoint.RecordTypeCNAME` (the endpoint package's constant `"CNAME"`). -/
def RecordTypeCNAME : String := "CNAME"

/-- `route53.ChangeActionCreate`. -/
def ChangeActionCreate : String := "CREATE"

/-- `route53.ChangeActionUpsert`. -/
def ChangeActionUpsert : String := "UPSERT"

/-- `route53.ChangeActionDelete`. -/
def ChangeActionDelete : String := "DELETE"

/-- The `canonicalHostedZones` map of `provider/aws.go`, as the list of its
entries (suffix, alias zone id).  The Go map's iteration order is
unspecified; the determinism theorem below shows the order is irrelevant. -/
def canonicalHostedZones : List (String × String) :=
  [ ("us-east-1" ++ elbHostnameSuffix, "Z35SXDOTRQ7X7K"),
    ("us-east-2" ++ elbHostnameSuffix, "Z3AADJGX6KTTL2"),
    ("us-west-1" ++ elbHostnameSuffix, "Z368ELLRRE2KJ0"),
    ("us-west-2" ++ elbHostnameSuffix, "Z1H1FL5HABSF5"),
    ("ca-central-1" ++ elbHostnameSuffix, "ZQSVJUPU6J1EY"),
    ("ap-south-1" ++ elbHostnameSuffix, "ZP97RAFLXTNZK"),
    ("ap-northeast-2" ++ elbHostnameSuffix, "ZWKZPGTI48KDX"),
    ("ap-southeast-1" ++ elbHostnameSuffix, "Z1LMS91P8CMLE5"),
    ("ap-southeast-2" ++ elbHostnameSuffix, "Z1GM3OXH4ZPM65"),
    ("ap-northeast-1" ++ elbHostnameSuffix, "Z14GRHDCWA56QT"),
    ("eu-central-1" ++ elbHostnameSuffix, "Z215JYRZR1TBD5"),
    ("eu-west-1" ++ elbHostnameSuffix, "Z32O12XQLNTSW2"),
    ("eu-west-2" ++ elbHostnameSuffix, "ZHURV8PSTC4K8"),
    ("sa-east-1" ++ elbHostnameSuffix, "Z2P70J7HTTTPLU") ]

/-- `canonicalHostedZone` generalized over the order in which the entries of
the `canonicalHostedZones` map are visited: the first entry whose suffix
matches wins, `""` if none matches. -/
def canonicalHostedZoneOn (table : List (String × String)) (hostname : String) : String :=
  match table.find? (fun p => hasSuffix hostname p.1) with
  | some p => p.2
  | none => ""

/-- `canonicalHostedZone` of `provider/aws.go` (range over the map; the
determinism theorem shows any visiting order returns the same zone). -/
def canonicalHostedZone (hostname : String) : String :=
  canonicalHostedZoneOn canonicalHostedZones hostname

/-- `isAWSLoadBalancer` of `provider/aws.go`. -/
def isAWSLoadBalancer (ep : Endpoint) : Bool :=
  if ep.RecordType = RecordTypeCNAME then decide (¬ canonicalHostedZone ep.Target = "") else false

/-- `newChange` of `provider/aws.go`.  The literal branch's TTL follows the
source: default `recordTTL` when the endpoint TTL is not configured, the
configured value otherwise. -/
def newChange (action : String) (ep : Endpoint) : Change :=
  if isAWSLoadBalancer ep then
    { Action := action,
      ResourceRecordSet :=
        { Name := ep.DNSName, type := RRTypeA, TTL := none, ResourceRecords := [],
          AliasTarget := some
            { DNSName := ep.Target, HostedZoneId := canonicalHostedZone ep.Target,
              EvaluateTargetHealth := evaluateTargetHealth } } }
  else
    { Action := action,
      ResourceRecordSet :=
        { Name := ep.DNSName, type := ep.RecordType,
          TTL := some (match ep.RecordTTL with | none => recordTTL | some t => t),
          ResourceRecords := [{ Value := ep.Target }],
          AliasTarget := none } }

/-- `newChanges` of `provider/aws.go`. -/
def newChanges (action : String) (endpoints : List Endpoint) : List Change :=
  endpoints.map (newChange action)

/- ## Zone registry (`zoneIDName`) and `changesByZone`. -/

/-- Modelled from the spec: `ensureTrailingDot` (referenced by `changesByZone`
but defined outside these sources) normalizes a record name to have a
trailing dot. -/
def ensureTrailingDot (hostname : String) : String :=
  if hasSuffix hostname "." then hostname else hostname ++ "."

/-- Modelled from the spec: `zoneIDName.Add` (the zone registry is referenced
by `changesByZone` but defined outside these sources) registers a
(zoneID, zoneSuffix) pair. -/
def zoneIDName.Add (m : List (String × String)) (zoneID zoneName : String) :
    List (String × String) :=
  m ++ [(zoneID, zoneName)]

/-- Modelled from the spec: the best (longest-suffix) match among the
registered zones, `none` when no registered suffix matches the hostname. -/
def findZoneBest (m : List (String × String)) (hostname : String) :
    Option (String × String) :=
  match m with
  | [] => none
  | z :: rest =>
    match findZoneBest rest hostname with
    | none => if hasSuffix hostname z.2 = true then some z else none
    | some b =>
      if hasSuffix hostname z.2 = true ∧ b.2.length < z.2.length then some z else some b

/-- Modelled from the spec: `zoneIDName.FindZone` returns the (zoneID,
zoneSuffix) of the zone whose suffix is the longest match for the hostname,
and empty strings when no registered suffix matches. -/
def zoneIDName.FindZone (m : List (String × String)) (hostname : String) :
    String × String :=
  (findZoneBest m hostname).getD ("", "")

/-- `changesByZone` of `provider/aws.go`.  `zones` is the list of entries
(Id, Name) of the Go zones map.  Each zone's bucket collects, in input order,
the changes whose normalized record name resolves to that zone; changes that
resolve to no zone (`FindZone` gives `""`) are dropped, and empty buckets are
removed at the end. -/
def changesByZone (zones : List (String × String)) (changeSet : List Change) :
    List (String × List Change) :=
  let mapper := zones.foldl (fun m z => zoneIDName.Add m z.1 z.2) []
  (zones.map (fun z =>
    (z.1, changeSet.filter (fun c =>
      let zoneID := (zoneIDName.FindZone mapper (ensureTrailingDot c.ResourceRecordSet.Name)).1
      decide (¬ zoneID = "" ∧ zoneID = z.1))))).filter
    (fun b => decide (¬ b.2 = []))

/- ## The batch limiter: `limitChangeSet` and `sortChangesByActionNameType`. -/

/-- The record-name key of a change together with its action and type, in the
order compared by `sortChangesByActionNameType`. -/
def chKey (c : Change) : String × String × String :=
  (c.Action, c.ResourceRecordSet.Name, c.ResourceRecordSet.type)

/-- The comparison closure passed to `sort.SliceStable` in
`sortChangesByActionNameType`: strict lexicographic on (Action, Name, Type). -/
def changeLtB (a b : Change) : Bool :=
  if strLt a.Action b.Action then true
  else if strLt b.Action a.Action then false
  else if strLt a.ResourceRecordSet.Name b.ResourceRecordSet.Name then true
  else if strLt b.ResourceRecordSet.Name a.ResourceRecordSet.Name then false
  else strLt a.ResourceRecordSet.type b.ResourceRecordSet.type

/-- The non-strict order induced by the `sort.SliceStable` comparison:
`a` may come before `b` iff `b` is not strictly less than `a`. -/
def changeLe (a b : Change) : Prop := changeLtB b a = false

instance : DecidableRel changeLe :=
  fun a b => inferInstanceAs (Decidable (changeLtB b a = false))

/-- `sortChangesByActionNameType` of `provider/aws.go`: `sort.SliceStable`
with the strict (Action, Name, Type) comparison; a stable sort is insertion
sort with the induced non-strict order. -/
def sortChangesByActionNameType (cs : List Change) : List Change :=
  List.insertionSort changeLe cs

/-- The per-name groups built by `limitChangeSet`'s `changesByName` map:
the changes carrying a given record name, in input order. -/
def groupFor (cs : List Change) (n : String) : List Change :=
  cs.filter (fun c => c.ResourceRecordSet.Name = n)

/-- The non-strict string order used to sort the collected names
(`sort.Strings` sorts by `<`; on the distinct key set the result is the same
as a stable sort by this order). -/
def strLe (a b : String) : Prop := strLt b a = false

instance : DecidableRel strLe :=
  fun a b => inferInstanceAs (Decidable (strLt b a = false))

/-- The sorted list of distinct record names of a change list: the keys of
`limitChangeSet`'s `changesByName` map (collected in unspecified map order,
then `sort.Strings`ed — the sorted distinct list does not depend on the
collection order). -/
def namesOf (cs : List Change) : List String :=
  List.insertionSort strLe (cs.map (fun c => c.ResourceRecordSet.Name)).dedup

/-- The selection loop of `limitChangeSet`: walk the sorted names, appending
a name's whole group whenever it fits in the remaining capacity (the
capacity comparison is Go `int` arithmetic, hence over `Int`). -/
def selectGroups (cs : List Change) (limit : Nat) :
    List String → List Change → List Change
  | [], limCs => limCs
  | n :: names, limCs =>
    let changes := groupFor cs n
    if (limit : Int) - limCs.length ≥ changes.length then
      selectGroups cs limit names (limCs ++ changes)
    else
      selectGroups cs limit names limCs

/-- `limitChangeSet` of `provider/aws.go`.  The limit is a Go `int`; the only
call site passes `maxChangeCount = 4000`, so it is modelled as `Nat` (the
capacity arithmetic inside still happens over `Int`, as in Go). -/
def limitChangeSet (cs : List Change) (limit : Nat) : List Change :=
  if cs.length ≤ limit then cs
  else sortChangesByActionNameType (selectGroups cs limit (namesOf cs) [])

/-- Definition following the words of claim C5: walk the (sorted-name) groups
in order, include a group in full exactly when it fits within the remaining
capacity (the limit minus the number of changes selected so far), and keep
evaluating later groups after skipping one. -/
def greedySpec (limit : Nat) : List (List Change) → Nat → List Change
  | [], _ => []
  | g :: rest, used =>
    if used + g.length ≤ limit then g ++ greedySpec limit rest (used + g.length)
    else greedySpec limit rest used

/- ## The submitter: `submitChanges` and `ApplyChanges`.

The external Route53 client is abstracted by its observable behavior: the
zone listing result (`zonesResult`, as returned by `Zones()`) and the
per-zone outcome of `ChangeResourceRecordSets` (`submitOutcome zoneID`,
`none` for success, `some err` for failure).  `submitChanges` returns the
provider's error result together with the trace of batches actually passed
to `ChangeResourceRecordSets` (zone, limited batch, outcome); in the Go
source a failed submission is logged and the loop `continue`s, so every
zone's batch is submitted regardless of other zones' outcomes and no
submission failure reaches the return value. -/

/-- `submitChanges` of `provider/aws.go`. -/
def submitChanges (zonesResult : Except String (List (String × String)))
    (submitOutcome : String → Option String) (dryRun : Bool)
    (changes : List Change) :
    Except String Unit × List (String × List Change × Option String) :=
  if changes.length = 0 then (Except.ok (), [])
  else
    match zonesResult with
    | Except.error e => (Except.error e, [])
    | Except.ok zones =>
      let byZone := changesByZone zones changes
      (Except.ok (),
        if dryRun then []
        else byZone.map (fun p => (p.1, limitChangeSet p.2 maxChangeCount, submitOutcome p.1)))

/-- `plan.Changes` (the fields consumed by `ApplyChanges`). -/
structure PlanChanges where
  Create : List Endpoint
  UpdateNew : List Endpoint
  UpdateOld : List Endpoint
  Delete : List Endpoint

/-- `ApplyChanges` of `provider/aws.go`. -/
def ApplyChanges (zonesResult : Except String (List (String × String)))
    (submitOutcome : String → Option String) (dryRun : Bool)
    (changes : PlanChanges) :
    Except String Unit × List (String × List Change × Option String) :=
  submitChanges zonesResult submitOutcome dryRun
    (newChanges ChangeActionCreate changes.Create ++
      newChanges ChangeActionUpsert changes.UpdateNew ++
      newChanges ChangeActionDelete changes.Delete)

/- ## Order-theoretic facts about the Go string comparison. -/

theorem lexLt_irrefl (l : List Char) : lexLt l l = false := by
  induction l with
  | nil => rfl
  | cons a as ih => simp [lexLt, ih]

theorem lexLt_trans {a b c : List Char} (h1 : lexLt a b = true)
    (h2 : lexLt b c = true) : lexLt a c = true := by
  induction a generalizing b c with
  | nil =>
    cases b with
    | nil => simp [lexLt] at h1
    | cons y bs =>
      cases c with
      | nil => simp [lexLt] at h2
      | cons z cs => simp [lexLt]
  | cons x as ih =>
    cases b with
    | nil => simp [lexLt] at h1
    | cons y bs =>
      cases c with
      | nil => simp [lexLt] at h2
      | cons z cs =>
        simp only [lexLt] at h1 h2 ⊢
        by_cases hxy : x < y
        · rw [if_pos hxy] at h1
          by_cases hyz : y < z
          · rw [if_pos (lt_trans hxy hyz)]
          · rw [if_neg hyz] at h2
            by_cases hzy : z < y
            · rw [if_pos hzy] at h2; exact absurd h2 (by simp)
            · have hyzeq : y = z := le_antisymm (not_lt.mp hzy) (not_lt.mp hyz)
              rw [if_pos (hyzeq ▸ hxy)]
        · rw [if_neg hxy] at h1
          by_cases hyx : y < x
          · rw [if_pos hyx] at h1; exact absurd h1 (by simp)
          · rw [if_neg hyx] at h1
            have hxyeq : x = y := le_antisymm (not_lt.mp hyx) (not_lt.mp hxy)
            subst hxyeq
            by_cases hxz : x < z
            · rw [if_pos hxz]
            · rw [if_neg hxz] at h2 ⊢
              by_cases hzx : z < x
              · rw [if_pos hzx] at h2; exact absurd h2 (by simp)
              · rw [if_neg hzx] at h2 ⊢
                exact ih h1 h2

theorem lexLt_connex {a b : List Char} (h1 : lexLt a b = false)
    (h2 : lexLt b a = false) : a = b := by
  induction a generalizing b with
  | nil =>
    cases b with
    | nil => rfl
    | cons y bs => simp [lexLt] at h1
  | cons x as ih =>
    cases b with
    | nil => simp [lexLt] at h2
    | cons y bs =>
      simp only [lexLt] at h1 h2
      by_cases hxy : x < y
      · rw [if_pos hxy] at h1; exact absurd h1 (by simp)
      · rw [if_neg hxy] at h1
        by_cases hyx : y < x
        · rw [if_pos hyx] at h2; exact absurd h2 (by simp)
        · rw [if_neg hyx] at h1
          rw [if_neg hyx, if_neg hxy] at h2
          have hxyeq : x = y := le_antisymm (not_lt.mp hyx) (not_lt.mp hxy)
          rw [hxyeq, ih h1 h2]

theorem lexLt_asymm {a b : List Char} (h : lexLt a b = true) : lexLt b a = false := by
  cases hba : lexLt b a with
  | false => rfl
  | true => exact absurd (lexLt_trans h hba) (by simp [lexLt_irrefl])

theorem string_data_eq {a b : String} (h : a.data = b.data) : a = b := by
  cases a; cases b; exact congrArg String.mk h

theorem strLt_irrefl (s : String) : strLt s s = false := lexLt_irrefl s.data

theorem strLt_asymm {a b : String} (h : strLt a b = true) : strLt b a = false :=
  lexLt_asymm h

theorem strLt_trans {a b c : String} (h1 : strLt a b = true) (h2 : strLt b c = true) :
    strLt a c = true :=
  lexLt_trans h1 h2

theorem strLt_connex {a b : String} (h1 : strLt a b = false) (h2 : strLt b a = false) :
    a = b :=
  string_data_eq (lexLt_connex h1 h2)

instance : IsTotal String strLe where
  total a b := by
    cases h : strLt b a with
    | false => exact Or.inl h
    | true => exact Or.inr (strLt_asymm h)

theorem strLt_false_trans {a b c : String} (h1 : strLt b a = false)
    (h2 : strLt c b = false) : strLt c a = false := by
  cases h : strLt c a with
  | false => rfl
  | true =>
    exfalso
    cases hab : strLt a b with
    | false =>
      have hae : a = b := strLt_connex hab h1
      rw [← hae] at h2
      rw [h2] at h
      exact absurd h (by simp)
    | true =>
      have : strLt c b = true := strLt_trans h hab
      rw [h2] at this
      exact absurd this (by simp)

instance : IsTrans String strLe where
  trans _ _ _ h1 h2 := strLt_false_trans h1 h2

instance : IsAntisymm String strLe where
  antisymm _ _ h1 h2 := strLt_connex h2 h1

/- ## Order-theoretic facts about the `sort.SliceStable` comparison. -/

/-- Generic strict lexicographic combination of two Bool comparisons, the
shape of the (Action, Name, Type) comparison in `sortChangesByActionNameType`. -/
def lexPair {α β : Type} (ltA : α → α → Bool) (ltB : β → β → Bool) (x y : α × β) : Bool :=
  if ltA x.1 y.1 then true else if ltA y.1 x.1 then false else ltB x.2 y.2

theorem lexPair_asymm {α β : Type} (ltA : α → α → Bool) (ltB : β → β → Bool)
    (hA : ∀ a b, ltA a b = true → ltA b a = false)
    (hB : ∀ a b, ltB a b = true → ltB b a = false)
    {x y : α × β} (h : lexPair ltA ltB x y = true) : lexPair ltA ltB y x = false := by
  cases c1 : ltA x.1 y.1 with
  | true => simp [lexPair, c1, hA _ _ c1]
  | false =>
    cases c2 : ltA y.1 x.1 with
    | true => simp [lexPair, c1, c2] at h
    | false =>
      have hb : ltB x.2 y.2 = true := by simpa [lexPair, c1, c2] using h
      simp [lexPair, c1, c2, hB _ _ hb]

theorem lexPair_connex {α β : Type} (ltA : α → α → Bool) (ltB : β → β → Bool)
    (hA : ∀ a b, ltA a b = false → ltA b a = false → a = b)
    (hB : ∀ a b, ltB a b = false → ltB b a = false → a = b)
    {x y : α × β} (h1 : lexPair ltA ltB x y = false)
    (h2 : lexPair ltA ltB y x = false) : x = y := by
  cases c1 : ltA x.1 y.1 with
  | true => simp [lexPair, c1] at h1
  | false =>
    cases c2 : ltA y.1 x.1 with
    | true => simp [lexPair, c2] at h2
    | false =>
      have b1 : ltB x.2 y.2 = false := by simpa [lexPair, c1, c2] using h1
      have b2 : ltB y.2 x.2 = false := by simpa [lexPair, c1, c2] using h2
      exact Prod.ext_iff.mpr ⟨hA _ _ c1 c2, hB _ _ b1 b2⟩

theorem lexPair_trans {α β : Type} (ltA : α → α → Bool) (ltB : β → β → Bool)
    (hAirrefl : ∀ a, ltA a a = false)
    (hAconnex : ∀ a b, ltA a b = false → ltA b a = false → a = b)
    (hAtrans : ∀ a b c, ltA a b = true → ltA b c = true → ltA a c = true)
    (hBtrans : ∀ a b c, ltB a b = true → ltB b c = true → ltB a c = true)
    {x y z : α × β} (h1 : lexPair ltA ltB x y = true)
    (h2 : lexPair ltA ltB y z = true) : lexPair ltA ltB x z = true := by
  cases c1 : ltA x.1 y.1 with
  | true =>
    cases c2 : ltA y.1 z.1 with
    | true => simp [lexPair, hAtrans _ _ _ c1 c2]
    | false =>
      cases c3 : ltA z.1 y.1 with
      | true => simp [lexPair, c2, c3] at h2
      | false =>
        have hyz : y.1 = z.1 := hAconnex _ _ c2 c3
        have : ltA x.1 z.1 = true := hyz ▸ c1
        simp [lexPair, this]
  | false =>
    cases c1b : ltA y.1 x.1 with
    | true => simp [lexPair, c1, c1b] at h1
    | false =>
      have hxy : x.1 = y.1 := hAconnex _ _ c1 c1b
      have hb1 : ltB x.2 y.2 = true := by simpa [lexPair, c1, c1b] using h1
      cases c2 : ltA y.1 z.1 with
      | true =>
        have : ltA x.1 z.1 = true := hxy ▸ c2
        simp [lexPair, this]
      | false =>
        cases c2b : ltA z.1 y.1 with
        | true => simp [lexPair, c2, c2b] at h2
        | false =>
          have hyz : y.1 = z.1 := hAconnex _ _ c2 c2b
          have hb2 : ltB y.2 z.2 = true := by simpa [lexPair, c2, c2b] using h2
          have hxz : x.1 = z.1 := hxy.trans hyz
          have e1 : ltA x.1 z.1 = false := by rw [hxz]; exact hAirrefl _
          have e2 : ltA z.1 x.1 = false := by rw [hxz]; exact hAirrefl _
          simp [lexPair, e1, e2, hBtrans _ _ _ hb1 hb2]

theorem boolRel_false_trans {γ : Type} (lt : γ → γ → Bool)
    (hconnex : ∀ a b, lt a b = false → lt b a = false → a = b)
    (htrans : ∀ a b c, lt a b = true → lt b c = true → lt a c = true)
    {x y z : γ} (h1 : lt x y = false) (h2 : lt y z = false) : lt x z = false := by
  cases h : lt x z with
  | false => rfl
  | true =>
    exfalso
    cases hyx : lt y x with
    | false =>
      have hxy : x = y := hconnex _ _ h1 hyx
      rw [hxy] at h
      rw [h] at h2
      exact absurd h2 (by simp)
    | true =>
      have : lt y z = true := htrans _ _ _ hyx h
      rw [h2] at this
      exact absurd this (by simp)

theorem strPairLt_asymm : ∀ x y : String × String,
    lexPair strLt strLt x y = true → lexPair strLt strLt y x = false :=
  fun _ _ h =>
    lexPair_asymm _ _ (fun _ _ hh => strLt_asymm hh) (fun _ _ hh => strLt_asymm hh) h

theorem strPairLt_connex : ∀ x y : String × String,
    lexPair strLt strLt x y = false → lexPair strLt strLt y x = false → x = y :=
  fun _ _ h1 h2 =>
    lexPair_connex _ _ (fun _ _ u v => strLt_connex u v) (fun _ _ u v => strLt_connex u v) h1 h2

theorem strPairLt_trans : ∀ x y z : String × String,
    lexPair strLt strLt x y = true → lexPair strLt strLt y z = true →
    lexPair strLt strLt x z = true :=
  fun _ _ _ h1 h2 =>
    lexPair_trans strLt strLt strLt_irrefl (fun _ _ u v => strLt_connex u v)
      (fun _ _ _ u v => strLt_trans u v) (fun _ _ _ u v => strLt_trans u v) h1 h2

/-- `changeLtB` is the lexicographic comparison of the (Action, Name, Type)
key triples. -/
theorem changeLtB_eq_lexPair (a b : Change) :
    changeLtB a b = lexPair strLt (lexPair strLt strLt) (chKey a) (chKey b) := rfl

theorem changeLtB_asymm {a b : Change} (h : changeLtB a b = true) :
    changeLtB b a = false := by
  rw [changeLtB_eq_lexPair] at h ⊢
  exact lexPair_asymm _ _ (fun _ _ hh => strLt_asymm hh) strPairLt_asymm h

theorem changeLtB_connex_key {a b : Change} (h1 : changeLtB a b = false)
    (h2 : changeLtB b a = false) : chKey a = chKey b := by
  rw [changeLtB_eq_lexPair] at h1 h2
  exact lexPair_connex _ _ (fun _ _ u v => strLt_connex u v) strPairLt_connex h1 h2

theorem changeLtB_trans {a b c : Change} (h1 : changeLtB a b = true)
    (h2 : changeLtB b c = true) : changeLtB a c = true := by
  rw [changeLtB_eq_lexPair] at h1 h2 ⊢
  exact lexPair_trans strLt (lexPair strLt strLt) strLt_irrefl
    (fun _ _ u v => strLt_connex u v) (fun _ _ _ u v => strLt_trans u v)
    (fun _ _ _ u v => strPairLt_trans _ _ _ u v) h1 h2

theorem changeLtB_false_trans {a b c : Change} (h1 : changeLtB a b = false)
    (h2 : changeLtB b c = false) : changeLtB a c = false := by
  rw [changeLtB_eq_lexPair] at h1 h2 ⊢
  exact boolRel_false_trans (lexPair strLt (lexPair strLt strLt))
    (fun _ _ u v => lexPair_connex _ _ (fun _ _ p q => strLt_connex p q) strPairLt_connex u v)
    (fun _ _ _ u v =>
      lexPair_trans strLt (lexPair strLt strLt) strLt_irrefl
        (fun _ _ p q => strLt_connex p q) (fun _ _ _ p q => strLt_trans p q)
        (fun _ _ _ p q => strPairLt_trans _ _ _ p q) u v)
    h1 h2

instance : IsTotal Change changeLe where
  total a b := by
    cases h : changeLtB b a with
    | false => exact Or.inl h
    | true => exact Or.inr (changeLtB_asymm h)

instance : IsTrans Change changeLe where
  trans _ _ _ h1 h2 := changeLtB_false_trans h2 h1

theorem changeLe_antisymm_key {a b : Change} (h1 : changeLe a b) (h2 : changeLe b a) :
    chKey a = chKey b :=
  changeLtB_connex_key h2 h1

/- ## Generic list lemmas. -/

/-- Two sorted lists that are permutations of each other are equal, assuming
antisymmetry only on the members of the list (the comparison used by
`sortChangesByActionNameType` is antisymmetric only up to key equality). -/
theorem eq_of_perm_of_sorted_of_antisymmOn {α : Type} {r : α → α → Prop} [IsTotal α r]
    {l₁ l₂ : List α} (hp : l₁.Perm l₂) (hs₁ : l₁.Sorted r) (hs₂ : l₂.Sorted r)
    (ha : ∀ a ∈ l₁, ∀ b ∈ l₁, r a b → r b a → a = b) : l₁ = l₂ := by
  induction l₁ generalizing l₂ with
  | nil => exact (hp.symm.eq_nil).symm
  | cons a t₁ ih =>
    cases l₂ with
    | nil => exact absurd hp.eq_nil (by simp)
    | cons b t₂ =>
      have hb1 : b ∈ a :: t₁ := hp.symm.subset (List.mem_cons_self b t₂)
      have ha2 : a ∈ b :: t₂ := hp.subset (List.mem_cons_self a t₁)
      have hrab : r a b := by
        rcases List.mem_cons.mp hb1 with h | h
        · rcases total_of r a b with h2 | h2
          · exact h2
          · rw [h]
            rw [h] at h2
            exact h2
        · exact (List.sorted_cons.mp hs₁).1 b h
      have hrba : r b a := by
        rcases List.mem_cons.mp ha2 with h | h
        · rcases total_of r b a with h2 | h2
          · exact h2
          · rw [h]
            rw [h] at h2
            exact h2
        · exact (List.sorted_cons.mp hs₂).1 a h
      have hab : a = b := ha a (List.mem_cons_self a t₁) b hb1 hrab hrba
      subst hab
      have hp2 : t₁.Perm t₂ := hp.cons_inv
      have : t₁ = t₂ :=
        ih hp2 (List.sorted_cons.mp hs₁).2 (List.sorted_cons.mp hs₂).2
          (fun x hx y hy u v =>
            ha x (List.mem_cons_of_mem _ hx) y (List.mem_cons_of_mem _ hy) u v)
      rw [this]

/-- `find?` returns the same result on any permutation of a list on which at
most one element satisfies the predicate (how `canonicalHostedZone` is
insensitive to the map's iteration order). -/
theorem find?_eq_of_perm {α : Type} {p : α → Bool} {l₁ l₂ : List α} (hp : l₁.Perm l₂)
    (hu : ∀ a ∈ l₁, ∀ b ∈ l₁, p a = true → p b = true → a = b) :
    l₁.find? p = l₂.find? p := by
  cases h1 : l₁.find? p with
  | none =>
    cases h2 : l₂.find? p with
    | none => rfl
    | some b =>
      exfalso
      have hb : b ∈ l₁ := hp.symm.subset (List.mem_of_find?_eq_some h2)
      exact (List.find?_eq_none.mp h1 b hb) (List.find?_some h2)
  | some a =>
    cases h2 : l₂.find? p with
    | none =>
      exfalso
      have hmem : a ∈ l₂ := hp.subset (List.mem_of_find?_eq_some h1)
      exact (List.find?_eq_none.mp h2 a hmem) (List.find?_some h1)
    | some b =>
      have hb1 : b ∈ l₁ := hp.symm.subset (List.mem_of_find?_eq_some h2)
      have : a = b :=
        hu a (List.mem_of_find?_eq_some h1) b hb1 (List.find?_some h1) (List.find?_some h2)
      rw [this]

/-- In an association list with pairwise-distinct keys, entries with equal
keys coincide. -/
theorem eq_of_mem_of_nodup_keys {α β : Type} {l : List (α × β)}
    (h : (l.map Prod.fst).Nodup) {x y : α × β} (hx : x ∈ l) (hy : y ∈ l)
    (hxy : x.1 = y.1) : x = y := by
  induction l with
  | nil => cases hx
  | cons z rest ih =>
    rw [List.map_cons, List.nodup_cons] at h
    rcases List.mem_cons.mp hx with rfl | hx2
    · rcases List.mem_cons.mp hy with rfl | hy2
      · rfl
      · exact absurd (by rw [hxy]; exact List.mem_map_of_mem Prod.fst hy2) h.1
    · rcases List.mem_cons.mp hy with rfl | hy2
      · exact absurd (by rw [← hxy]; exact List.mem_map_of_mem Prod.fst hx2) h.1
      · exact ih h.2 hx2 hy2

/- ## Suffix facts. -/

theorem hasSuffix_iff {s suf : String} : hasSuffix s suf = true ↔ suf.data <:+ s.data :=
  List.isSuffixOf_iff_suffix

/-- Two suffixes of the same string are comparable: one is a suffix of the
other. -/
theorem hasSuffix_comparable {s a b : String} (ha : hasSuffix s a = true)
    (hb : hasSuffix s b = true) : hasSuffix b a = true ∨ hasSuffix a b = true := by
  rcases List.suffix_or_suffix_of_suffix (hasSuffix_iff.mp ha) (hasSuffix_iff.mp hb) with h | h
  · exact Or.inl (hasSuffix_iff.mpr h)
  · exact Or.inr (hasSuffix_iff.mpr h)

/- ## Facts about the canonical hosted zones table. -/

/-- No key of the `canonicalHostedZones` table is a suffix of another key. -/
theorem canonicalHostedZones_pairwise :
    canonicalHostedZones.Pairwise
      (fun p q => hasSuffix p.1 q.1 = false ∧ hasSuffix q.1 p.1 = false) := by
  decide

/-- Every alias-zone identifier in the table is non-empty. -/
theorem canonicalHostedZones_values_ne_empty :
    ∀ q ∈ canonicalHostedZones, ¬ q.2 = "" := by decide

/-- At most one table entry's suffix matches any given hostname. -/
theorem canonicalHostedZones_unique_match {h : String} {p q : String × String}
    (hp : p ∈ canonicalHostedZones) (hq : q ∈ canonicalHostedZones)
    (hps : hasSuffix h p.1 = true) (hqs : hasSuffix h q.1 = true) : p = q := by
  by_cases hpq : p = q
  · exact hpq
  · exfalso
    have hsym : Symmetric
        (fun p q : String × String => hasSuffix p.1 q.1 = false ∧ hasSuffix q.1 p.1 = false) :=
      fun x y hxy => ⟨hxy.2, hxy.1⟩
    have hR := List.Pairwise.forall hsym canonicalHostedZones_pairwise hp hq hpq
    rcases hasSuffix_comparable hps hqs with hc | hc
    · rw [hR.2] at hc
      exact absurd hc (by simp)
    · rw [hR.1] at hc
      exact absurd hc (by simp)

/- ## Facts about the zone registry lookup. -/

theorem foldl_Add_eq (zones : List (String × String)) :
    ∀ acc, zones.foldl (fun m z => zoneIDName.Add m z.1 z.2) acc = acc ++ zones := by
  induction zones with
  | nil => intro acc; simp
  | cons z rest ih =>
    intro acc
    show List.foldl (fun m z => zoneIDName.Add m z.1 z.2) (zoneIDName.Add acc z.1 z.2) rest =
      acc ++ z :: rest
    rw [ih]
    simp [zoneIDName.Add]

theorem findZoneBest_eq_none {m : List (String × String)} {h : String}
    (hn : findZoneBest m h = none) : ∀ p ∈ m, hasSuffix h p.2 = false := by
  induction m with
  | nil => simp
  | cons z rest ih =>
    intro p hp
    simp only [findZoneBest] at hn
    cases hr : findZoneBest rest h with
    | none =>
      simp only [hr] at hn
      by_cases hz : hasSuffix h z.2 = true
      · rw [if_pos hz] at hn
        simp at hn
      · rcases List.mem_cons.mp hp with rfl | hp2
        · revert hz; cases hasSuffix h p.2 <;> simp
        · exact ih hr p hp2
    | some c =>
      exfalso
      simp only [hr] at hn
      by_cases hcond : hasSuffix h z.2 = true ∧ c.2.length < z.2.length
      · rw [if_pos hcond] at hn; simp at hn
      · rw [if_neg hcond] at hn; simp at hn

theorem findZoneBest_some {m : List (String × String)} {h : String} {b : String × String}
    (hb : findZoneBest m h = some b) :
    b ∈ m ∧ hasSuffix h b.2 = true ∧
      ∀ q ∈ m, hasSuffix h q.2 = true → q.2.length ≤ b.2.length := by
  induction m generalizing b with
  | nil => simp [findZoneBest] at hb
  | cons z rest ih =>
    simp only [findZoneBest] at hb
    cases hr : findZoneBest rest h with
    | none =>
      simp only [hr] at hb
      by_cases hz : hasSuffix h z.2 = true
      · rw [if_pos hz] at hb
        obtain rfl : z = b := Option.some.inj hb
        refine ⟨List.mem_cons_self _ _, hz, ?_⟩
        intro q hq hqs
        rcases List.mem_cons.mp hq with rfl | hq2
        · exact le_refl _
        · exact absurd hqs (by simp [findZoneBest_eq_none hr q hq2])
      · rw [if_neg hz] at hb
        simp at hb
    | some c =>
      simp only [hr] at hb
      obtain ⟨hcmem, hcs, hcmax⟩ := ih hr
      by_cases hcond : hasSuffix h z.2 = true ∧ c.2.length < z.2.length
      · rw [if_pos hcond] at hb
        obtain rfl : z = b := Option.some.inj hb
        refine ⟨List.mem_cons_self _ _, hcond.1, ?_⟩
        intro q hq hqs
        rcases List.mem_cons.mp hq with rfl | hq2
        · exact le_refl _
        · exact le_trans (hcmax q hq2 hqs) (le_of_lt hcond.2)
      · rw [if_neg hcond] at hb
        obtain rfl : c = b := Option.some.inj hb
        refine ⟨List.mem_cons_of_mem _ hcmem, hcs, ?_⟩
        intro q hq hqs
        rcases List.mem_cons.mp hq with rfl | hq2
        · have hnlt : ¬ c.2.length < q.2.length := fun hlt => hcond ⟨hqs, hlt⟩
          exact not_lt.mp hnlt
        · exact hcmax q hq2 hqs

/- ## Facts about the selection loop of `limitChangeSet`. -/

theorem selectGroups_length (cs : List Change) (limit : Nat) :
    ∀ names acc, acc.length ≤ limit → (selectGroups cs limit names acc).length ≤ limit := by
  intro names
  induction names with
  | nil => intro acc h; simpa [selectGroups] using h
  | cons n rest ih =>
    intro acc h
    simp only [selectGroups]
    by_cases hc : (limit : Int) - acc.length ≥ ((groupFor cs n).length : Int)
    · rw [if_pos hc]
      apply ih
      have : acc.length + (groupFor cs n).length ≤ limit := by omega
      simpa [List.length_append] using this
    · rw [if_neg hc]
      exact ih acc h

theorem selectGroups_subset (cs : List Change) (limit : Nat) :
    ∀ names acc c, c ∈ selectGroups cs limit names acc → c ∈ acc ∨ c ∈ cs := by
  intro names
  induction names with
  | nil => intro acc c h; exact Or.inl (by simpa [selectGroups] using h)
  | cons n rest ih =>
    intro acc c h
    simp only [selectGroups] at h
    by_cases hc : (limit : Int) - acc.length ≥ ((groupFor cs n).length : Int)
    · rw [if_pos hc] at h
      rcases ih _ c h with h2 | h2
      · rcases List.mem_append.mp h2 with h3 | h3
        · exact Or.inl h3
        · exact Or.inr (List.mem_of_mem_filter h3)
      · exact Or.inr h2
    · rw [if_neg hc] at h
      exact ih _ c h

theorem selectGroups_perm {cs1 cs2 : List Change} (hcs : cs1.Perm cs2) (limit : Nat) :
    ∀ names {acc1 acc2 : List Change}, acc1.Perm acc2 →
      (selectGroups cs1 limit names acc1).Perm (selectGroups cs2 limit names acc2) := by
  intro names
  induction names with
  | nil => intro acc1 acc2 h; simpa [selectGroups] using h
  | cons n rest ih =>
    intro acc1 acc2 h
    have hg : (groupFor cs1 n).Perm (groupFor cs2 n) := hcs.filter _
    have hglen : (groupFor cs1 n).length = (groupFor cs2 n).length := hg.length_eq
    have halen : acc1.length = acc2.length := h.length_eq
    simp only [selectGroups]
    by_cases hc : (limit : Int) - acc1.length ≥ ((groupFor cs1 n).length : Int)
    · rw [if_pos hc, if_pos (by rw [← hglen, ← halen]; exact hc)]
      exact ih (h.append hg)
    · rw [if_neg hc, if_neg (by rw [← hglen, ← halen]; exact hc)]
      exact ih h

theorem groupFor_filter_ne {cs : List Change} {n m : String} (h : ¬ n = m) :
    (groupFor cs m).filter (fun c => c.ResourceRecordSet.Name = n) = [] := by
  rw [List.filter_eq_nil_iff]
  intro c hc
  have h2 : c.ResourceRecordSet.Name = m := by
    have := (List.mem_filter.mp hc).2
    simpa using this
  simp [h2]
  exact fun hmn => h hmn.symm

theorem groupFor_filter_self (cs : List Change) (n : String) :
    (groupFor cs n).filter (fun c => c.ResourceRecordSet.Name = n) = groupFor cs n := by
  rw [List.filter_eq_self]
  intro c hc
  exact (List.mem_filter.mp hc).2

theorem selectGroups_filter (cs : List Change) (limit : Nat) (n : String) :
    ∀ names acc, names.Nodup →
      (n ∈ names → acc.filter (fun c => c.ResourceRecordSet.Name = n) = []) →
      ((acc.filter (fun c => c.ResourceRecordSet.Name = n)).Perm (groupFor cs n) ∨
        acc.filter (fun c => c.ResourceRecordSet.Name = n) = []) →
      (((selectGroups cs limit names acc).filter
          (fun c => c.ResourceRecordSet.Name = n)).Perm (groupFor cs n) ∨
        (selectGroups cs limit names acc).filter
          (fun c => c.ResourceRecordSet.Name = n) = []) := by
  intro names
  induction names with
  | nil => intro acc _ _ h3; simpa [selectGroups] using h3
  | cons m rest ih =>
    intro acc hnd h2 h3
    rw [List.nodup_cons] at hnd
    simp only [selectGroups]
    by_cases hc : (limit : Int) - acc.length ≥ ((groupFor cs m).length : Int)
    · rw [if_pos hc]
      by_cases hnm : n = m
      · subst hnm
        have hacc : acc.filter (fun c => c.ResourceRecordSet.Name = n) = [] :=
          h2 (List.mem_cons_self _ _)
        refine ih (acc ++ groupFor cs n) hnd.2 (fun hmem => absurd hmem hnd.1) (Or.inl ?_)
        rw [List.filter_append, hacc, List.nil_append, groupFor_filter_self]
      · have hgf : (groupFor cs m).filter (fun c => c.ResourceRecordSet.Name = n) = [] :=
          groupFor_filter_ne hnm
        refine ih (acc ++ groupFor cs m) hnd.2 (fun hmem => ?_) ?_
        · rw [List.filter_append, hgf, List.append_nil]
          exact h2 (List.mem_cons_of_mem _ hmem)
        · rw [List.filter_append, hgf, List.append_nil]
          exact h3
    · rw [if_neg hc]
      exact ih acc hnd.2 (fun hmem => h2 (List.mem_cons_of_mem _ hmem)) h3

theorem namesOf_nodup (cs : List Change) : (namesOf cs).Nodup := by
  unfold namesOf
  exact (List.perm_insertionSort strLe _).symm.nodup (List.nodup_dedup _)

/- ## Claim theorems. -/

/-- A literal change used as concrete sample data in witnesses. -/
def sampleChange (action name ty val : String) : Change :=
  { Action := action,
    ResourceRecordSet :=
      { Name := name, type := ty, TTL := some 300,
        ResourceRecords := [{ Value := val }], AliasTarget := none } }

/-- C1: for every input list of changes and every limit, `limitChangeSet`
returns at most `limit` changes, and no record-name group is split: for each
record name, the output's group is the whole input group (up to order) or is
empty. -/
theorem limitChangeSet_le_limit_and_groups_whole (cs : List Change) (limit : Nat) :
    (limitChangeSet cs limit).length ≤ limit ∧
    ∀ n, (groupFor (limitChangeSet cs limit) n).Perm (groupFor cs n) ∨
      groupFor (limitChangeSet cs limit) n = [] := by
  unfold limitChangeSet
  by_cases h : cs.length ≤ limit
  · rw [if_pos h]
    exact ⟨h, fun n => Or.inl (List.Perm.refl _)⟩
  · rw [if_neg h]
    constructor
    · have hlen : (selectGroups cs limit (namesOf cs) []).length ≤ limit :=
        selectGroups_length cs limit (namesOf cs) [] (by simp)
    
      have hp : (sortChangesByActionNameType (selectGroups cs limit (namesOf cs) [])).length
          = (selectGroups cs limit (namesOf cs) []).length :=
        (List.perm_insertionSort changeLe _).length_eq
      rw [hp]
      exact hlen
    · intro n
      have hsel := selectGroups_filter cs limit n (namesOf cs) [] (namesOf_nodup cs)
        (fun _ => rfl) (Or.inr rfl)
      have hperm : (groupFor (sortChangesByActionNameType (selectGroups cs limit (namesOf cs) [])) n).Perm
          (groupFor (selectGroups cs limit (namesOf cs) []) n) :=
        (List.perm_insertionSort changeLe _).filter _
      rcases hsel with h1 | h1
      · exact Or.inl (hperm.trans h1)
      · right
        have h2 := hperm
        rw [show groupFor (selectGroups cs limit (namesOf cs) []) n =
          (selectGroups cs limit (namesOf cs) []).filter
            (fun c => c.ResourceRecordSet.Name = n) from rfl, h1] at h2
        exact h2.eq_nil

/-- C8: when the input fits within the limit, `limitChangeSet` returns the
input unchanged. -/
theorem limitChangeSet_small_input_id (cs : List Change) (limit : Nat)
    (h : cs.length ≤ limit) : limitChangeSet cs limit = cs := by
  unfold limitChangeSet
  rw [if_pos h]

/-- Witness for C8 at a concrete input. -/
theorem limitChangeSet_small_input_id_witness :
    ([sampleChange "CREATE" "a.example.com." "A" "1.1.1.1",
      sampleChange "DELETE" "b.example.com." "A" "2.2.2.2"] : List Change).length ≤ 4000 ∧
    limitChangeSet
      [sampleChange "CREATE" "a.example.com." "A" "1.1.1.1",
        sampleChange "DELETE" "b.example.com." "A" "2.2.2.2"] 4000 =
      [sampleChange "CREATE" "a.example.com." "A" "1.1.1.1",
        sampleChange "DELETE" "b.example.com." "A" "2.2.2.2"] :=
  ⟨by decide, limitChangeSet_small_input_id _ 4000 (by decide)⟩

/-- Sample change with name `a.example.com.` for concrete witnesses. -/
def sampleA : Change := sampleChange "CREATE" "a.example.com." "A" "1.1.1.1"

/-- Sample change with name `b.example.com.` for concrete witnesses. -/
def sampleB : Change := sampleChange "CREATE" "b.example.com." "A" "2.2.2.2"

theorem selectGroups_eq_greedySpec (cs : List Change) (limit : Nat) :
    ∀ names acc, selectGroups cs limit names acc =
      acc ++ greedySpec limit (names.map (fun n => groupFor cs n)) acc.length := by
  intro names
  induction names with
  | nil => intro acc; simp [selectGroups, greedySpec]
  | cons n rest ih =>
    intro acc
    simp only [selectGroups, List.map_cons, greedySpec]
    by_cases hc : (limit : Int) - acc.length ≥ ((groupFor cs n).length : Int)
    · rw [if_pos hc, if_pos (show acc.length + (groupFor cs n).length ≤ limit by omega)]
      rw [ih]
      simp [List.length_append, List.append_assoc]
    · rw [if_neg hc, if_neg (show ¬ acc.length + (groupFor cs n).length ≤ limit by omega)]
      exact ih acc

/-- C5: when the input is longer than the limit, `limitChangeSet` walks the
distinct record names in sorted order (`namesOf` is exactly the duplicate-free
sorted list of the input's record names), greedily keeping a name's whole
group exactly when it fits the remaining capacity, skipped groups
notwithstanding (`greedySpec` written from the claim), and finally re-sorts. -/
theorem limitChangeSet_greedy_walk (cs : List Change) (limit : Nat) (h : limit < cs.length) :
    (namesOf cs).Nodup ∧ List.Sorted strLe (namesOf cs) ∧
    (∀ n, n ∈ namesOf cs ↔ ∃ c ∈ cs, c.ResourceRecordSet.Name = n) ∧
    limitChangeSet cs limit =
      sortChangesByActionNameType
        (greedySpec limit ((namesOf cs).map (fun n => groupFor cs n)) 0) := by
  refine ⟨namesOf_nodup cs, ?_, ?_, ?_⟩
  · unfold namesOf
    exact List.sorted_insertionSort strLe _
  · intro n
    unfold namesOf
    rw [(List.perm_insertionSort strLe _).mem_iff, List.mem_dedup, List.mem_map]
  · unfold limitChangeSet
    rw [if_neg (by omega)]
    rw [selectGroups_eq_greedySpec]
    simp

/-- Witness for C5 at a concrete input (two names, limit 1: the group of
`a.example.com.` is kept, the group of `b.example.com.` is dropped). -/
theorem limitChangeSet_greedy_walk_witness :
    1 < ([sampleB, sampleA] : List Change).length ∧
    ((namesOf [sampleB, sampleA]).Nodup ∧
      List.Sorted strLe (namesOf [sampleB, sampleA]) ∧
      (∀ n, n ∈ namesOf [sampleB, sampleA] ↔
        ∃ c ∈ ([sampleB, sampleA] : List Change), c.ResourceRecordSet.Name = n) ∧
      limitChangeSet [sampleB, sampleA] 1 =
        sortChangesByActionNameType
          (greedySpec 1 ((namesOf [sampleB, sampleA]).map
            (fun n => groupFor [sampleB, sampleA] n)) 0)) :=
  ⟨by decide, limitChangeSet_greedy_walk [sampleB, sampleA] 1 (by decide)⟩

/-- C6 counterexample: two inputs that are permutations of each other and fit
within the limit are returned as-is, in their distinct input orders — the
outputs of `limitChangeSet` are not identical. -/
theorem limitChangeSet_order_counterexample :
    (([sampleA, sampleB] : List Change).Perm [sampleB, sampleA]) ∧
    ¬ limitChangeSet [sampleA, sampleB] 2 = limitChangeSet [sampleB, sampleA] 2 := by
  constructor
  · decide
  · decide

/-- C6 (amended): when both (permutation-equal) inputs are longer than the
limit, the two outputs of `limitChangeSet` are permutations of each other,
and they are identical lists provided no two distinct input changes share the
same (action, record name, record type) key (ties of that key keep their
input-relative order under the final stable sort, so key-sharing inputs may
still differ in order). -/
theorem limitChangeSet_deterministic_over_limit (cs1 cs2 : List Change) (limit : Nat)
    (hperm : cs1.Perm cs2) (hlen : limit < cs1.length) :
    (limitChangeSet cs1 limit).Perm (limitChangeSet cs2 limit) ∧
    ((∀ a ∈ cs1, ∀ b ∈ cs1, chKey a = chKey b → a = b) →
      limitChangeSet cs1 limit = limitChangeSet cs2 limit) := by
  have hlen2 : limit < cs2.length := hperm.length_eq ▸ hlen
  have hnames : namesOf cs1 = namesOf cs2 := by
    apply List.eq_of_perm_of_sorted (r := strLe)
    · unfold namesOf
      exact (List.perm_insertionSort strLe _).trans
        (((hperm.map _).dedup).trans (List.perm_insertionSort strLe _).symm)
    · unfold namesOf
      exact List.sorted_insertionSort strLe _
    · unfold namesOf
      exact List.sorted_insertionSort strLe _
  have hsel : (selectGroups cs1 limit (namesOf cs1) []).Perm
      (selectGroups cs2 limit (namesOf cs1) []) :=
    selectGroups_perm hperm limit (namesOf cs1) (List.Perm.refl [])
  have e1 : limitChangeSet cs1 limit =
      sortChangesByActionNameType (selectGroups cs1 limit (namesOf cs1) []) := by
    unfold limitChangeSet
    rw [if_neg (by omega)]
  have e2 : limitChangeSet cs2 limit =
      sortChangesByActionNameType (selectGroups cs2 limit (namesOf cs1) []) := by
    unfold limitChangeSet
    rw [if_neg (by omega), hnames]
  have houtperm : (limitChangeSet cs1 limit).Perm (limitChangeSet cs2 limit) := by
    rw [e1, e2]
    exact (List.perm_insertionSort changeLe _).trans
      (hsel.trans (List.perm_insertionSort changeLe _).symm)
  refine ⟨houtperm, fun hinj => ?_⟩
  rw [e1, e2] at houtperm ⊢
  apply eq_of_perm_of_sorted_of_antisymmOn (r := changeLe) houtperm
    (List.sorted_insertionSort changeLe _) (List.sorted_insertionSort changeLe _)
  intro a ha b hb u v
  have ha1 : a ∈ cs1 := by
    rcases selectGroups_subset cs1 limit (namesOf cs1) [] a
      ((List.perm_insertionSort changeLe _).subset ha) with h2 | h2
    · cases h2
    · exact h2
  have hb1 : b ∈ cs1 := by
    rcases selectGroups_subset cs1 limit (namesOf cs1) [] b
      ((List.perm_insertionSort changeLe _).subset hb) with h2 | h2
    · cases h2
    · exact h2
  exact hinj a ha1 b hb1 (changeLe_antisymm_key u v)

/-- Witness for the amended C6 at a concrete input with limit 1 and key-wise
distinct changes. -/
theorem limitChangeSet_deterministic_over_limit_witness :
    ([sampleB, sampleA] : List Change).Perm [sampleA, sampleB] ∧
    1 < ([sampleB, sampleA] : List Change).length ∧
    ((limitChangeSet [sampleB, sampleA] 1).Perm (limitChangeSet [sampleA, sampleB] 1) ∧
      ((∀ a ∈ ([sampleB, sampleA] : List Change), ∀ b ∈ ([sampleB, sampleA] : List Change),
          chKey a = chKey b → a = b) →
        limitChangeSet [sampleB, sampleA] 1 = limitChangeSet [sampleA, sampleB] 1)) :=
  ⟨by decide, by decide,
    limitChangeSet_deterministic_over_limit [sampleB, sampleA] [sampleA, sampleB] 1
      (by decide) (by decide)⟩

/-- C4: as invoked by `changesByZone` (on the record name normalized by
`ensureTrailingDot`), `FindZone` returns the zoneID of a registered zone
whose suffix matches and has maximal length among all matching suffixes, and
returns the empty zoneID when no registered suffix matches. -/
theorem FindZone_longest_suffix (reg : List (String × String)) (hostname : String) :
    ((∀ p ∈ reg, hasSuffix (ensureTrailingDot hostname) p.2 = false) →
      (zoneIDName.FindZone reg (ensureTrailingDot hostname)).1 = "") ∧
    ((∃ p ∈ reg, hasSuffix (ensureTrailingDot hostname) p.2 = true) →
      ∃ p ∈ reg, (zoneIDName.FindZone reg (ensureTrailingDot hostname)).1 = p.1 ∧
        hasSuffix (ensureTrailingDot hostname) p.2 = true ∧
        ∀ q ∈ reg, hasSuffix (ensureTrailingDot hostname) q.2 = true →
          q.2.length ≤ p.2.length) := by
  constructor
  · intro hnone
    unfold zoneIDName.FindZone
    cases hfb : findZoneBest reg (ensureTrailingDot hostname) with
    | none => rfl
    | some b =>
      exfalso
      obtain ⟨hmem, hsuf, _⟩ := findZoneBest_some hfb
      rw [hnone b hmem] at hsuf
      exact absurd hsuf (by simp)
  · rintro ⟨p, hp, hps⟩
    unfold zoneIDName.FindZone
    cases hfb : findZoneBest reg (ensureTrailingDot hostname) with
    | none => exact absurd hps (by simp [findZoneBest_eq_none hfb p hp])
    | some b =>
      obtain ⟨hmem, hsuf, hmax⟩ := findZoneBest_some hfb
      exact ⟨b, hmem, rfl, hsuf, hmax⟩

/-- Witness for C4: with a parent zone and a subdomain zone registered, the
hostname resolves to a zone, and the longest-matching one. -/
theorem FindZone_longest_suffix_witness :
    (∃ p ∈ ([("z1", "example.com."), ("z2", "sub.example.com.")] : List (String × String)),
      hasSuffix (ensureTrailingDot "app.sub.example.com.") p.2 = true) ∧
    (∃ p ∈ ([("z1", "example.com."), ("z2", "sub.example.com.")] : List (String × String)),
      (zoneIDName.FindZone [("z1", "example.com."), ("z2", "sub.example.com.")]
        (ensureTrailingDot "app.sub.example.com.")).1 = p.1 ∧
      hasSuffix (ensureTrailingDot "app.sub.example.com.") p.2 = true ∧
      ∀ q ∈ ([("z1", "example.com."), ("z2", "sub.example.com.")] : List (String × String)),
        hasSuffix (ensureTrailingDot "app.sub.example.com.") q.2 = true →
        q.2.length ≤ p.2.length) :=
  ⟨by decide,
    (FindZone_longest_suffix [("z1", "example.com."), ("z2", "sub.example.com.")]
      "app.sub.example.com.").2 (by decide)⟩

/-- Membership characterization of `changesByZone`'s result. -/
theorem mem_changesByZone {zones : List (String × String)} {changeSet : List Change}
    {b : String × List Change} :
    b ∈ changesByZone zones changeSet ↔
      (∃ z ∈ zones, b = (z.1, changeSet.filter (fun c =>
        decide (¬ (zoneIDName.FindZone zones
            (ensureTrailingDot c.ResourceRecordSet.Name)).1 = "" ∧
          (zoneIDName.FindZone zones
            (ensureTrailingDot c.ResourceRecordSet.Name)).1 = z.1)))) ∧
      ¬ b.2 = [] := by
  simp only [changesByZone]
  rw [foldl_Add_eq zones [], List.nil_append]
  rw [List.mem_filter, List.mem_map]
  constructor
  · rintro ⟨⟨z, hz, hfz⟩, h2⟩
    exact ⟨⟨z, hz, hfz.symm⟩, by simpa using h2⟩
  · rintro ⟨⟨z, hz, hfz⟩, h2⟩
    exact ⟨⟨z, hz, hfz.symm⟩, by simpa using h2⟩

/-- C7: `changesByZone` assigns each change to at most one zone's bucket
(distinct zone ids assumed, as the keys of the Go zones map are distinct),
never duplicates a change, drops changes that resolve to no zone, and keeps
only non-empty buckets. -/
theorem changesByZone_partition (zones : List (String × String)) (changeSet : List Change)
    (hids : (zones.map Prod.fst).Nodup) :
    (∀ c : Change, ∀ b1 ∈ changesByZone zones changeSet,
      ∀ b2 ∈ changesByZone zones changeSet, c ∈ b1.2 → c ∈ b2.2 → b1 = b2) ∧
    (∀ c : Change, ∀ b ∈ changesByZone zones changeSet,
      b.2.count c ≤ changeSet.count c) ∧
    (∀ c : Change,
      (zoneIDName.FindZone zones (ensureTrailingDot c.ResourceRecordSet.Name)).1 = "" →
      ∀ b ∈ changesByZone zones changeSet, c ∉ b.2) ∧
    (∀ b ∈ changesByZone zones changeSet, ¬ b.2 = []) := by
  refine ⟨?_, ?_, ?_, ?_⟩
  · intro c b1 hb1 b2 hb2 hc1 hc2
    obtain ⟨⟨z1, hz1, rfl⟩, _⟩ := mem_changesByZone.mp hb1
    obtain ⟨⟨z2, hz2, rfl⟩, _⟩ := mem_changesByZone.mp hb2
    have p1 := (List.mem_filter.mp hc1).2
    have p2 := (List.mem_filter.mp hc2).2
    simp only [decide_eq_true_eq] at p1 p2
    have hz12 : z1.1 = z2.1 := by rw [← p1.2, ← p2.2]
    rw [eq_of_mem_of_nodup_keys hids hz1 hz2 hz12]
  · intro c b hb
    obtain ⟨⟨z, hz, rfl⟩, _⟩ := mem_changesByZone.mp hb
    exact (List.filter_sublist changeSet).count_le c
  · intro c hF b hb hcmem
    obtain ⟨⟨z, hz, rfl⟩, _⟩ := mem_changesByZone.mp hb
    have p := (List.mem_filter.mp hcmem).2
    simp only [decide_eq_true_eq] at p
    exact p.1 hF
  · intro b hb
    exact (mem_changesByZone.mp hb).2

/-- Witness for C7 at a concrete zone set and change list (one change inside
the zone, one outside all zones). -/
theorem changesByZone_partition_witness :
    (([("zid1", "example.com.")] : List (String × String)).map Prod.fst).Nodup ∧
    ((∀ c : Change,
      ∀ b1 ∈ changesByZone [("zid1", "example.com.")]
        [sampleChange "CREATE" "foo.example.com." "A" "1.2.3.4",
          sampleChange "CREATE" "foo.unknown-domain.com." "A" "5.6.7.8"],
      ∀ b2 ∈ changesByZone [("zid1", "example.com.")]
        [sampleChange "CREATE" "foo.example.com." "A" "1.2.3.4",
          sampleChange "CREATE" "foo.unknown-domain.com." "A" "5.6.7.8"],
      c ∈ b1.2 → c ∈ b2.2 → b1 = b2) ∧
    (∀ c : Change, ∀ b ∈ changesByZone [("zid1", "example.com.")]
        [sampleChange "CREATE" "foo.example.com." "A" "1.2.3.4",
          sampleChange "CREATE" "foo.unknown-domain.com." "A" "5.6.7.8"],
      b.2.count c ≤
        ([sampleChange "CREATE" "foo.example.com." "A" "1.2.3.4",
          sampleChange "CREATE" "foo.unknown-domain.com." "A" "5.6.7.8"] : List Change).count c) ∧
    (∀ c : Change,
      (zoneIDName.FindZone [("zid1", "example.com.")]
        (ensureTrailingDot c.ResourceRecordSet.Name)).1 = "" →
      ∀ b ∈ changesByZone [("zid1", "example.com.")]
        [sampleChange "CREATE" "foo.example.com." "A" "1.2.3.4",
          sampleChange "CREATE" "foo.unknown-domain.com." "A" "5.6.7.8"], c ∉ b.2) ∧
    (∀ b ∈ changesByZone [("zid1", "example.com.")]
        [sampleChange "CREATE" "foo.example.com." "A" "1.2.3.4",
          sampleChange "CREATE" "foo.unknown-domain.com." "A" "5.6.7.8"], ¬ b.2 = [])) :=
  ⟨by decide,
    changesByZone_partition [("zid1", "example.com.")]
      [sampleChange "CREATE" "foo.example.com." "A" "1.2.3.4",
        sampleChange "CREATE" "foo.unknown-domain.com." "A" "5.6.7.8"] (by decide)⟩

/- ## `canonicalHostedZone` characterization. -/

theorem canonicalHostedZone_eq_of_match {h : String} {p : String × String}
    (hp : p ∈ canonicalHostedZones) (hs : hasSuffix h p.1 = true) :
    canonicalHostedZone h = p.2 := by
  unfold canonicalHostedZone canonicalHostedZoneOn
  cases hf : canonicalHostedZones.find? (fun q => hasSuffix h q.1) with
  | none => exact absurd hs (by simp [List.find?_eq_none.mp hf p hp])
  | some q =>
    have hq := List.mem_of_find?_eq_some hf
    have hqs := List.find?_some hf
    rw [canonicalHostedZones_unique_match hq hp hqs hs]

theorem canonicalHostedZone_empty_of_no_match {h : String}
    (hn : ∀ p ∈ canonicalHostedZones, hasSuffix h p.1 = false) :
    canonicalHostedZone h = "" := by
  unfold canonicalHostedZone canonicalHostedZoneOn
  cases hf : canonicalHostedZones.find? (fun q => hasSuffix h q.1) with
  | none => rfl
  | some q =>
    exfalso
    have hqs := List.find?_some hf
    rw [hn q (List.mem_of_find?_eq_some hf)] at hqs
    exact absurd hqs (by simp)

theorem canonicalHostedZone_ne_empty_iff (h : String) :
    ¬ canonicalHostedZone h = "" ↔
      ∃ p ∈ canonicalHostedZones, hasSuffix h p.1 = true := by
  constructor
  · intro hne
    by_contra hex
    push_neg at hex
    have hall : ∀ p ∈ canonicalHostedZones, hasSuffix h p.1 = false := by
      intro p hp
      have := hex p hp
      revert this
      cases hasSuffix h p.1 <;> simp
    exact hne (canonicalHostedZone_empty_of_no_match hall)
  · rintro ⟨p, hp, hs⟩
    rw [canonicalHostedZone_eq_of_match hp hs]
    exact canonicalHostedZones_values_ne_empty p hp

/-- C3: a CNAME endpoint whose target ends in a known load-balancer suffix
becomes an A-type alias change pointing at that suffix's alias zone id with
health-check evaluation enabled; every other endpoint becomes a literal
change with the declared type, the target as single record value, and the
configured TTL or the 300-second default. -/
theorem newChange_alias_or_literal (action : String) (ep : Endpoint) :
    (ep.RecordType = RecordTypeCNAME →
      (∃ p ∈ canonicalHostedZones, hasSuffix ep.Target p.1 = true) →
      (∃ p ∈ canonicalHostedZones, hasSuffix ep.Target p.1 = true ∧
        canonicalHostedZone ep.Target = p.2) ∧
      newChange action ep =
        { Action := action,
          ResourceRecordSet :=
            { Name := ep.DNSName, type := RRTypeA, TTL := none, ResourceRecords := [],
              AliasTarget := some
                { DNSName := ep.Target, HostedZoneId := canonicalHostedZone ep.Target,
                  EvaluateTargetHealth := true } } }) ∧
    (¬ (ep.RecordType = RecordTypeCNAME ∧
        ∃ p ∈ canonicalHostedZones, hasSuffix ep.Target p.1 = true) →
      newChange action ep =
        { Action := action,
          ResourceRecordSet :=
            { Name := ep.DNSName, type := ep.RecordType,
              TTL := some (ep.RecordTTL.getD recordTTL),
              ResourceRecords := [{ Value := ep.Target }],
              AliasTarget := none } }) := by
  have hlb : isAWSLoadBalancer ep = true ↔
      (ep.RecordType = RecordTypeCNAME ∧
        ∃ p ∈ canonicalHostedZones, hasSuffix ep.Target p.1 = true) := by
    unfold isAWSLoadBalancer
    by_cases hrt : ep.RecordType = RecordTypeCNAME
    · rw [if_pos hrt]
      simp [hrt, canonicalHostedZone_ne_empty_iff]
    · rw [if_neg hrt]
      simp [hrt]
  constructor
  · intro hrt hex
    have hl : isAWSLoadBalancer ep = true := hlb.mpr ⟨hrt, hex⟩
    constructor
    · obtain ⟨p, hp, hs⟩ := hex
      exact ⟨p, hp, hs, canonicalHostedZone_eq_of_match hp hs⟩
    · unfold newChange
      rw [if_pos hl]
      rfl
  · intro hne
    have hl : isAWSLoadBalancer ep = false := by
      cases hh : isAWSLoadBalancer ep
      · rfl
      · exact absurd (hlb.mp hh) hne
    unfold newChange
    rw [if_neg (by simp [hl])]
    cases ep.RecordTTL <;> rfl

/-- Witness for C3: an ELB-targeted CNAME endpoint takes the alias branch; an
A-record endpoint with a configured TTL takes the literal branch. -/
theorem newChange_alias_or_literal_witness :
    ((∃ p ∈ canonicalHostedZones,
        hasSuffix ("foo.us-east-1" ++ elbHostnameSuffix) p.1 = true ∧
        canonicalHostedZone ("foo.us-east-1" ++ elbHostnameSuffix) = p.2) ∧
      newChange "CREATE"
          { DNSName := "app.example.com.", Target := "foo.us-east-1" ++ elbHostnameSuffix,
            RecordType := "CNAME", RecordTTL := none } =
        { Action := "CREATE",
          ResourceRecordSet :=
            { Name := "app.example.com.", type := RRTypeA, TTL := none,
              ResourceRecords := [],
              AliasTarget := some
                { DNSName := "foo.us-east-1" ++ elbHostnameSuffix,
                  HostedZoneId :=
                    canonicalHostedZone ("foo.us-east-1" ++ elbHostnameSuffix),
                  EvaluateTargetHealth := true } } }) ∧
    newChange "CREATE"
        { DNSName := "app.example.com.", Target := "1.2.3.4",
          RecordType := "A", RecordTTL := some 60 } =
      { Action := "CREATE",
        ResourceRecordSet :=
          { Name := "app.example.com.", type := "A",
            TTL := some ((some (60 : Int)).getD recordTTL),
            ResourceRecords := [{ Value := "1.2.3.4" }],
            AliasTarget := none } } :=
  ⟨(newChange_alias_or_literal "CREATE"
      { DNSName := "app.example.com.", Target := "foo.us-east-1" ++ elbHostnameSuffix,
        RecordType := "CNAME", RecordTTL := none }).1 (by decide) (by decide),
    (newChange_alias_or_literal "CREATE"
      { DNSName := "app.example.com.", Target := "1.2.3.4",
        RecordType := "A", RecordTTL := some 60 }).2 (by decide)⟩

/-- C9: on an endpoint recognized as an AWS load balancer, the produced
change carries no TTL and no literal resource records — only the alias
fields — and the endpoint's TTL is entirely ignored. -/
theorem newChange_alias_ignores_ttl (action : String) (ep : Endpoint)
    (h : isAWSLoadBalancer ep = true) :
    (newChange action ep).ResourceRecordSet.TTL = none ∧
    (newChange action ep).ResourceRecordSet.ResourceRecords = [] ∧
    (newChange action ep).ResourceRecordSet.AliasTarget =
      some { DNSName := ep.Target, HostedZoneId := canonicalHostedZone ep.Target,
             EvaluateTargetHealth := true } ∧
    ∀ t, newChange action { ep with RecordTTL := t } = newChange action ep := by
  have hl2 : ∀ t : Option Int,
      isAWSLoadBalancer { ep with RecordTTL := t } = isAWSLoadBalancer ep := fun _ => rfl
  refine ⟨?_, ?_, ?_, ?_⟩
  · unfold newChange
    rw [if_pos h]
  · unfold newChange
    rw [if_pos h]
  · unfold newChange
    rw [if_pos h]
    rfl
  · intro t
    unfold newChange
    rw [hl2 t, if_pos h, if_pos h]

/-- Witness for C9 at a concrete ELB endpoint. -/
theorem newChange_alias_ignores_ttl_witness :
    isAWSLoadBalancer
      { DNSName := "app.example.com.", Target := "foo.eu-west-1" ++ elbHostnameSuffix,
        RecordType := "CNAME", RecordTTL := some 60 } = true ∧
    ((newChange "UPSERT"
        { DNSName := "app.example.com.", Target := "foo.eu-west-1" ++ elbHostnameSuffix,
          RecordType := "CNAME", RecordTTL := some 60 }).ResourceRecordSet.TTL = none ∧
      (newChange "UPSERT"
        { DNSName := "app.example.com.", Target := "foo.eu-west-1" ++ elbHostnameSuffix,
          RecordType := "CNAME",
          RecordTTL := some 60 }).ResourceRecordSet.ResourceRecords = [] ∧
      (newChange "UPSERT"
        { DNSName := "app.example.com.", Target := "foo.eu-west-1" ++ elbHostnameSuffix,
          RecordType := "CNAME", RecordTTL := some 60 }).ResourceRecordSet.AliasTarget =
        some { DNSName := "foo.eu-west-1" ++ elbHostnameSuffix,
               HostedZoneId :=
                 canonicalHostedZone ("foo.eu-west-1" ++ elbHostnameSuffix),
               EvaluateTargetHealth := true } ∧
      ∀ t, newChange "UPSERT"
          { DNSName := "app.example.com.", Target := "foo.eu-west-1" ++ elbHostnameSuffix,
            RecordType := "CNAME", RecordTTL := t } =
        newChange "UPSERT"
          { DNSName := "app.example.com.", Target := "foo.eu-west-1" ++ elbHostnameSuffix,
            RecordType := "CNAME", RecordTTL := some 60 }) :=
  ⟨by decide,
    newChange_alias_ignores_ttl "UPSERT"
      { DNSName := "app.example.com.", Target := "foo.eu-west-1" ++ elbHostnameSuffix,
        RecordType := "CNAME", RecordTTL := some 60 } (by decide)⟩

/-- C10: no key of the load-balancer suffix table is a suffix of another key,
hence at most one entry matches any hostname, and `canonicalHostedZone` (and
with it `isAWSLoadBalancer`) does not depend on the order in which the map's
entries are visited. -/
theorem canonicalHostedZone_order_independent :
    canonicalHostedZones.Pairwise
      (fun p q => hasSuffix p.1 q.1 = false ∧ hasSuffix q.1 p.1 = false) ∧
    (∀ h : String, ∀ p ∈ canonicalHostedZones, ∀ q ∈ canonicalHostedZones,
      hasSuffix h p.1 = true → hasSuffix h q.1 = true → p = q) ∧
    (∀ l : List (String × String), canonicalHostedZones.Perm l →
      ∀ h : String, canonicalHostedZoneOn l h = canonicalHostedZone h) := by
  refine ⟨canonicalHostedZones_pairwise, ?_, ?_⟩
  · intro h p hp q hq hps hqs
    exact canonicalHostedZones_unique_match hp hq hps hqs
  · intro l hl h
    unfold canonicalHostedZone canonicalHostedZoneOn
    have : l.find? (fun p => hasSuffix h p.1) =
        canonicalHostedZones.find? (fun p => hasSuffix h p.1) :=
      find?_eq_of_perm hl.symm (fun a ha b hb pa pb =>
        canonicalHostedZones_unique_match (hl.symm.subset ha) (hl.symm.subset hb) pa pb)
    rw [this]

/-- Witness for C10: visiting the table in reverse order returns the same
alias zone. -/
theorem canonicalHostedZone_order_independent_witness :
    canonicalHostedZones.Perm canonicalHostedZones.reverse ∧
    canonicalHostedZoneOn canonicalHostedZones.reverse
        ("x.eu-west-1" ++ elbHostnameSuffix) =
      canonicalHostedZone ("x.eu-west-1" ++ elbHostnameSuffix) :=
  ⟨(List.reverse_perm canonicalHostedZones).symm,
    canonicalHostedZone_order_independent.2.2 canonicalHostedZones.reverse
      (List.reverse_perm canonicalHostedZones).symm ("x.eu-west-1" ++ elbHostnameSuffix)⟩

/-- C2: `submitChanges` returns success whenever zone listing succeeded, for
every possible per-zone submission outcome; when not in dry-run it passes
every zone's (limited) batch to the client regardless of other zones'
failures; only a zone-listing failure is propagated; and `ApplyChanges`
likewise returns success whenever zone listing succeeded. -/
theorem submitChanges_tolerates_zone_failures
    (zones : List (String × String)) (submitOutcome : String → Option String)
    (dryRun : Bool) (changes : List Change) :
    (submitChanges (Except.ok zones) submitOutcome dryRun changes).1 = Except.ok () ∧
    (dryRun = false → ¬ changes = [] →
      (submitChanges (Except.ok zones) submitOutcome dryRun changes).2 =
        (changesByZone zones changes).map
          (fun p => (p.1, limitChangeSet p.2 maxChangeCount, submitOutcome p.1))) ∧
    (∀ e, ¬ changes = [] →
      (submitChanges (Except.error e) submitOutcome dryRun changes).1 =
        Except.error e) ∧
    (∀ pc : PlanChanges,
      (ApplyChanges (Except.ok zones) submitOutcome dryRun pc).1 = Except.ok ()) := by
  have hok : ∀ cs : List Change,
      (submitChanges (Except.ok zones) submitOutcome dryRun cs).1 = Except.ok () := by
    intro cs
    unfold submitChanges
    by_cases h : cs.length = 0
    · rw [if_pos h]
    · rw [if_neg h]
  refine ⟨hok changes, ?_, ?_, ?_⟩
  · intro hdr hne
    unfold submitChanges
    rw [if_neg (fun hz => hne (List.length_eq_zero.mp hz)), hdr]
    simp
  · intro e hne
    unfold submitChanges
    rw [if_neg (fun hz => hne (List.length_eq_zero.mp hz))]
  · intro pc
    unfold ApplyChanges
    exact hok _

/-- Witness for C2: one zone, one matching change, a client whose submission
always fails — the call still returns success and the failing batch was
submitted; a zone-listing failure is returned as-is. -/
theorem submitChanges_tolerates_zone_failures_witness :
    ¬ ([sampleChange "CREATE" "app.example.com." "A" "1.2.3.4"] : List Change) = [] ∧
    (submitChanges (Except.ok [("zid1", "example.com.")])
        (fun _ => some "simulated failure") false
        [sampleChange "CREATE" "app.example.com." "A" "1.2.3.4"]).1 = Except.ok () ∧
    (submitChanges (Except.ok [("zid1", "example.com.")])
        (fun _ => some "simulated failure") false
        [sampleChange "CREATE" "app.example.com." "A" "1.2.3.4"]).2 =
      (changesByZone [("zid1", "example.com.")]
          [sampleChange "CREATE" "app.example.com." "A" "1.2.3.4"]).map
        (fun p => (p.1, limitChangeSet p.2 maxChangeCount,
          (fun _ : String => some "simulated failure") p.1)) ∧
    (submitChanges (Except.error "zone listing failed")
        (fun _ => some "simulated failure") false
        [sampleChange "CREATE" "app.example.com." "A" "1.2.3.4"]).1 =
      Except.error "zone listing failed" :=
  ⟨by decide,
    (submitChanges_tolerates_zone_failures [("zid1", "example.com.")]
      (fun _ => some "simulated failure") false
      [sampleChange "CREATE" "app.example.com." "A" "1.2.3.4"]).1,
    (submitChanges_tolerates_zone_failures [("zid1", "example.com.")]
      (fun _ => some "simulated failure") false
      [sampleChange "CREATE" "app.example.com." "A" "1.2.3.4"]).2.1 rfl (by decide),
    (submitChanges_tolerates_zone_failures [("zid1", "example.com.")]
      (fun _ => some "simulated failure") false
      [sampleChange "CREATE" "app.example.com." "A" "1.2.3.4"]).2.2.1
      "zone listing failed" (by decide)⟩
